import Mathlib

/-!
# Verification of the snap7 easy-vars field/record serialization engine and
# connection manager

Shallow embedding of `snap7_easy_vars/fields.py`, `snap7_easy_vars/data.py`
and `snap7_easy_vars/connection.py`.

Modelling conventions:
* Byte buffers (`bytes` / `bytearray`) are `List Nat`, each element a byte
  value.  A real `bytearray` keeps every element in `[0, 256)`; predicates
  below carry that invariant where needed.
* Python `bytearray` slice assignment `buf[a : a + len(v)] = v` is `splice`.
* Python integers are `Int`.  A REAL (32-bit IEEE-754 float) field value is
  represented by its big-endian binary32 bit pattern, a natural number below
  `2 ^ 32`; `struct.pack(">f", x)` for a 32-bit-representable `x` writes
  exactly the 4 bytes of that pattern and `struct.unpack(">f", ·)` reads
  them back, so on those values this is a faithful byte-level model.  A
  stored value with no binary32 pattern — a finite float beyond the
  binary32 range, such as `1e39` — makes `struct.pack(">f", ...)` raise
  `OverflowError`; in the pattern model those are the values outside
  `[0, 2 ^ 32)`, and the real field's write fails on them.
* Fallible Python operations (indexing a `bytearray` out of range raises
  `IndexError`, storing a value `≥ 256` in a `bytearray` cell raises
  `ValueError`, packing an overlarge float raises `OverflowError`) are
  modelled with `Option`.
-/

set_option maxHeartbeats 1000000

namespace SnapVars

/-- Result of one call into external code: a returned value or a raised
exception. -/
inductive Res (α : Type) where
  | ok : α → Res α
  | exn : Res α
deriving DecidableEq

/-- Python `bytearray` slice assignment `buf[a : a + v.length] = v`:
replace the (clamped) slice by `v`.  `List.take` and `List.drop` clamp at
the list length exactly as Python slicing does. -/
def splice (buf : List Nat) (a : Nat) (v : List Nat) : List Nat :=
  buf.take a ++ v ++ buf.drop (a + v.length)

/-- Byte at index `j` of a buffer (0 past the end; only used in-range where
it matters). -/
def byteAt (buf : List Nat) (j : Nat) : Nat := buf.getD j 0

/-- Every element of the buffer is a byte value.  True of any list that
models a Python `bytes` / `bytearray`. -/
def ByteOk (buf : List Nat) : Prop := ∀ b ∈ buf, b < 256

instance (buf : List Nat) : Decidable (ByteOk buf) :=
  inferInstanceAs (Decidable (∀ b ∈ buf, b < 256))

/-- A PLC field descriptor: `PLCBoolField byte_offset bit_offset`,
`PLCWordField byte_offset signed`, `PLCRealField byte_offset`
(`fields.py`, classes `PLCBoolField`, `PLCWordField`, `PLCRealField`). -/
inductive PLCField where
  | bool (byte_offset bit_offset : Nat)
  | word (byte_offset : Nat) (signed : Bool)
  | real (byte_offset : Nat)
deriving DecidableEq

namespace PLCField

/-- The field's `byte_offset` attribute. -/
def byte_offset : PLCField → Nat
  | .bool b _ => b
  | .word b _ => b
  | .real b => b

/-- The field's `size` attribute: 1 for bit fields, 2 for WORD, 4 for REAL
(set by each subclass constructor in `fields.py`). -/
def size : PLCField → Nat
  | .bool _ _ => 1
  | .word _ _ => 2
  | .real _ => 4

/-- One past the last byte index the field covers. -/
def byteEnd (f : PLCField) : Nat := f.byte_offset + f.size

end PLCField

/-- `PLCBoolField.coerce`: `1 if bool(value) else 0` (on an integer,
`bool(value)` is `value != 0`). -/
def boolCoerce (v : Int) : Int := if v = 0 then 0 else 1

/-- `PLCWordField._clamp` (also its `coerce`): clamp to the signed or
unsigned 16-bit range, branching on `self.signed`. -/
def wordClamp : Bool → Int → Int
  | true, v => max (min v 32767) (-32768)
  | false, v => max (min v 65535) 0

/-- Big-endian value of a byte list (`int.from_bytes(l, "big")`). -/
def beNat (l : List Nat) : Nat := l.foldl (fun acc b => acc * 256 + b) 0

/-- The 16-bit two's complement pattern of the clamped value, the natural
number `coerce(value) % 2 ^ 16`. -/
def wordPat (signed : Bool) (v : Int) : Nat := ((wordClamp signed v) % 65536).toNat

/-- The two bytes written by `PLCWordField.write`:
`coerce(value).to_bytes(2, byteorder="big", signed=...)`, the big-endian
base-256 digits of the two's complement pattern. -/
def wordToBytes (signed : Bool) (v : Int) : List Nat :=
  [wordPat signed v / 256, wordPat signed v % 256]

/-- The binary32 pattern held in a REAL field value (values are modelled
by their patterns, reduced mod `2 ^ 32`). -/
def realPat (v : Int) : Nat := (v % 4294967296).toNat

/-- The four bytes written by `PLCRealField.write`:
`struct.pack(">f", float(value))`, in the bit-pattern model the big-endian
base-256 digits of the pattern. -/
def realToBytes (v : Int) : List Nat :=
  [realPat v / 16777216 % 256, realPat v / 65536 % 256, realPat v / 256 % 256,
    realPat v % 256]

/-- `read(data, current)` of each field class in `fields.py`.

* Bit field: if `len(data) <= byte_offset` return `current`, else
  `(data[byte_offset] >> bit_offset) & 0x01`.
* WORD: take `data[byte_offset : byte_offset + 2]`; if shorter than 2
  return `current`, else `int.from_bytes(slice, "big", signed)`.
* REAL: take `data[byte_offset : byte_offset + 4]`; if shorter than 4
  return `current`, else unpack (a 4-byte unpack never raises, so the
  `struct.error` fallback in the source is unreachable there); in the
  bit-pattern model the result is the big-endian value of the slice. -/
def PLCField.read (f : PLCField) (data : List Nat) (current : Int) : Int :=
  match f with
  | .bool b o =>
    if data.length ≤ b then current
    else (((byteAt data b) >>> o) &&& 1 : Nat)
  | .word b s =>
    if ((data.drop b).take 2).length < 2 then current
    else if s && decide (32768 ≤ beNat ((data.drop b).take 2)) then
      (beNat ((data.drop b).take 2) : Int) - 65536
    else (beNat ((data.drop b).take 2) : Int)
  | .real b =>
    if ((data.drop b).take 4).length < 4 then current
    else (beNat ((data.drop b).take 4) : Int)

/-- The byte stored back by `PLCBoolField.write`: coerce the value, then
`old | (1 << bit_offset)` for a truthy value, `old & (~mask) & 0xFF`
otherwise.  For `mask = 2 ^ o` Python's `(~mask) & 0xFF` equals
`255 ^^^ (mask % 256)`. -/
def boolNewByte (o : Nat) (old : Nat) (v : Int) : Nat :=
  if boolCoerce v = 1 then old ||| 2 ^ o else old &&& (255 ^^^ (2 ^ o % 256))

/-- `write(buffer, value)` of each field class in `fields.py`.

* Bit field: update the addressed byte via `boolNewByte`.  Indexing past
  the end raises `IndexError` and storing a non-byte in a `bytearray` cell
  raises `ValueError`; both are `none`.
* WORD: coerce (clamp) and slice-assign the 2 big-endian bytes.
* REAL: slice-assign the 4 bytes of `struct.pack(">f", float(value))`.
  `pack` raises `OverflowError` when the stored float has no binary32
  pattern (a finite value beyond the binary32 range, e.g. `1e39`) — in
  the pattern model, when the value is outside `[0, 2 ^ 32)`; that is
  `none`. -/
def PLCField.write (f : PLCField) (buf : List Nat) (v : Int) : Option (List Nat) :=
  match f with
  | .bool b o =>
    if b < buf.length then
      if boolNewByte o (byteAt buf b) v < 256 then
        some (buf.set b (boolNewByte o (byteAt buf b) v))
      else none
    else none
  | .word b s => some (splice buf b (wordToBytes s v))
  | .real b =>
    if 0 ≤ v ∧ v < 4294967296 then some (splice buf b (realToBytes v))
    else none

/-- `PLCData.buffer_size` (`data.py`): `max(byte_offset + size)` over the
schema's fields, `0` for an empty schema. -/
def buffer_size (fields : List PLCField) : Nat :=
  (fields.map (fun f => f.byteEnd)).foldr max 0

/-- The field-value updates performed by `PLCData.from_bytes`: every field
reads from `raw` with its currently stored value as fallback.  Field names
are unique in the `_fields` mapping, so positions in the parallel lists
model the per-name dictionary entries. -/
def from_bytesVals (fields : List PLCField) (values : List Int) (raw : List Nat) : List Int :=
  (fields.zip values).map (fun fv => fv.1.read raw fv.2)

/-- The loop of `PLCData.to_bytes`: write each field's stored value into
the shared buffer in schema order. -/
def writeAll (fvs : List (PLCField × Int)) (buf : List Nat) : Option (List Nat) :=
  match fvs with
  | [] => some buf
  | fv :: rest =>
    match fv.1.write buf fv.2 with
    | some buf2 => writeAll rest buf2
    | none => none

/-- `PLCData.to_bytes`: allocate a zero-filled buffer of `buffer_size()`
bytes and write every field into it. -/
def to_bytes (fields : List PLCField) (values : List Int) : Option (List Nat) :=
  writeAll (fields.zip values) (List.replicate (buffer_size fields) 0)

/-- Validity invariant of a field descriptor as stated by the data model:
a bit field addresses a bit inside its byte (`bit_offset` in `[0, 7]`). -/
def PLCField.valid : PLCField → Prop
  | .bool _ o => o < 8
  | .word _ _ => True
  | .real _ => True

instance (f : PLCField) : Decidable f.valid := by
  cases f
  · exact inferInstanceAs (Decidable (_ < _))
  · exact inferInstanceAs (Decidable True)
  · exact inferInstanceAs (Decidable True)

/-- A value is in-range for a field: bit values in `{0, 1}`, WORD values in
the signed/unsigned 16-bit range, REAL values a binary32 bit pattern. -/
def PLCField.inRange : PLCField → Int → Prop
  | .bool _ _, v => v = 0 ∨ v = 1
  | .word _ true, v => -32768 ≤ v ∧ v ≤ 32767
  | .word _ false, v => 0 ≤ v ∧ v ≤ 65535
  | .real _, v => 0 ≤ v ∧ v < 4294967296

instance (f : PLCField) (v : Int) : Decidable (f.inRange v) := by
  cases f with
  | bool b o => exact inferInstanceAs (Decidable (_ ∨ _))
  | word b s => cases s <;> exact inferInstanceAs (Decidable (_ ∧ _))
  | real b => exact inferInstanceAs (Decidable (_ ∧ _))

/-- The stored value can be encoded by the field's write: any integer for
bit and word fields (their writes coerce first), and for real fields a
value with a binary32 pattern — `struct.pack(">f", float(value))` raises
`OverflowError` on the rest. -/
def PLCField.packable : PLCField → Int → Prop
  | .bool _ _, _ => True
  | .word _ _, _ => True
  | .real _, v => 0 ≤ v ∧ v < 4294967296

instance (f : PLCField) (v : Int) : Decidable (f.packable v) := by
  cases f with
  | bool b o => exact inferInstanceAs (Decidable True)
  | word b s => exact inferInstanceAs (Decidable True)
  | real b => exact inferInstanceAs (Decidable (_ ∧ _))

/-- Bit `k` of byte `j` belongs to the field's footprint: the single
addressed bit for a bit field, all bits of the covered bytes otherwise. -/
def PLCField.touches : PLCField → Nat → Nat → Prop
  | .bool b o, j, k => j = b ∧ k = o
  | .word b _, j, _ => b ≤ j ∧ j < b + 2
  | .real b, j, _ => b ≤ j ∧ j < b + 4

instance (f : PLCField) (j k : Nat) : Decidable (f.touches j k) := by
  cases f <;> exact inferInstanceAs (Decidable (_ ∧ _))

/-- Byte `j` lies in the field's byte range `[byte_offset, byteEnd)`. -/
def PLCField.inBytes (f : PLCField) (j : Nat) : Prop :=
  f.byte_offset ≤ j ∧ j < f.byteEnd

instance (f : PLCField) (j : Nat) : Decidable (f.inBytes j) :=
  inferInstanceAs (Decidable (_ ∧ _))

/-- Two fields have disjoint footprints: distinct bits for two bit fields,
and otherwise non-overlapping byte ranges (a bit field's byte outside the
other field's range, or the two multi-byte ranges disjoint). -/
def PLCField.disj : PLCField → PLCField → Prop
  | .bool b o, .bool b' o' => b ≠ b' ∨ o ≠ o'
  | .bool b _, .word b' _ => b < b' ∨ b' + 2 ≤ b
  | .bool b _, .real b' => b < b' ∨ b' + 4 ≤ b
  | .word b _, .bool b' _ => b' < b ∨ b + 2 ≤ b'
  | .word b _, .word b' _ => b + 2 ≤ b' ∨ b' + 2 ≤ b
  | .word b _, .real b' => b + 2 ≤ b' ∨ b' + 4 ≤ b
  | .real b, .bool b' _ => b' < b ∨ b + 4 ≤ b'
  | .real b, .word b' _ => b + 4 ≤ b' ∨ b' + 2 ≤ b
  | .real b, .real b' => b + 4 ≤ b' ∨ b' + 4 ≤ b

instance (f g : PLCField) : Decidable (f.disj g) := by
  cases f <;> cases g <;> exact inferInstanceAs (Decidable (_ ∨ _))

example : to_bytes [PLCField.bool 0 0, PLCField.word 1 false] [1, 300] = some [1, 1, 44] := by
  decide

example : from_bytesVals [PLCField.bool 0 0, PLCField.word 1 false] [0, 0] [1, 1, 44] = [1, 300] := by
  decide

/-! ## Liveness model (`data.py`, `is_connected` / `last_connected`) -/

/-- `PLCData.IS_CONNECTED_TIMEOUT` (`data.py`): the liveness window, 2
seconds.  Timestamps and durations are rational numbers of seconds. -/
def IS_CONNECTED_TIMEOUT : ℚ := 2

/-- The liveness-related state of a `PLCData` instance: its
`_last_connected` timestamp, `None` until a sync is recorded. -/
structure PLCDataConn where
  last_connected_attr : Option ℚ

/-- `PLCData.is_connected` (`data.py`): `False` when `_last_connected is
None`, else `(now - _last_connected).total_seconds() <=
IS_CONNECTED_TIMEOUT`. -/
def is_connected (s : PLCDataConn) (now : ℚ) : Bool :=
  match s.last_connected_attr with
  | none => false
  | some t => decide (now - t ≤ IS_CONNECTED_TIMEOUT)

/-- The timestamp update performed by `PLCData.last_connected_setter`
(`data.py`): store the new value in `_last_connected` (the setter also
notifies on a liveness flip and re-arms the expiry timer; the stored
timestamp is all the liveness flag reads). -/
def last_connected_setter (s : PLCDataConn) (value : Option ℚ) : PLCDataConn :=
  { s with last_connected_attr := value }

/-! ## Subscriber / notification model (`data.py`) -/

/-- State of a `PLCData` instance relevant to decode and notification: the
stored field values and the subscriber queues.  Each queue is an
`asyncio.Queue` with `maxsize=100`, modelled by its pending content; the
payload pushed is always the instance itself, so one token per delivered
notification suffices. -/
structure PLCDataState where
  values : List Int
  subscribers : List (List Unit)

/-- `PLCData.notify_subscribers` (`data.py`): `put_nowait` on every
subscriber queue, silently dropping the notification when a queue is
already full. -/
def notify_subscribers (s : PLCDataState) : PLCDataState :=
  { s with subscribers := s.subscribers.map (fun q => if q.length < 100 then q ++ [()] else q) }

/-- `PLCData.from_bytes` (`data.py`): update every field's stored value
from the raw buffer, then call `notify_subscribers()` once, after the
field loop. -/
def from_bytes (fields : List PLCField) (s : PLCDataState) (raw : List Nat) : PLCDataState :=
  notify_subscribers { s with values := from_bytesVals fields s.values raw }

/-! ## Connection manager model (`connection.py`)

`PLCConnection` talks to external collaborators (the snap7 client handle,
a TCP socket, the remote PLC).  Their behaviour is an oracle giving the
result of the n-th call of each primitive; the run state counts the calls
made, holds the data store's `last_connected` timestamp and an event log
recording, in order, every observable step of the methods. -/

/-- Observable steps of a `PLCConnection` run: entering `connect()`,
calling `client.get_connected()`, the TCP preflight, the snap7
`client.connect`, `db_read`, `db_write`, `to_bytes` (encode), feeding the
read bytes to `from_bytes` (decode), and storing a fresh sync
timestamp. -/
inductive CEvent where
  | connectEnter
  | gcCall
  | probeCall
  | s7Call
  | dbReadCall
  | dbWriteCall
  | encode
  | decode
  | syncSet
deriving DecidableEq

/-- Number of occurrences of an event in a log. -/
def countE (e : CEvent) : List CEvent → Nat
  | [] => 0
  | x :: rest => (if x = e then 1 else 0) + countE e rest

/-- Behaviour of the external collaborators: the result of the n-th call
of each primitive, and the current wall-clock time `datetime.now()`. -/
structure Env where
  gc : Nat → Res Bool
  probe : Nat → Res Unit
  s7c : Nat → Res Unit
  dbr : Nat → Res (List Nat)
  dbw : Nat → Res Unit
  now : ℚ

/-- State threaded through a `PLCConnection` run: how many times each
primitive was called so far, the data store's `last_connected` timestamp,
and the event log. -/
structure CState where
  gcN : Nat
  probeN : Nat
  s7cN : Nat
  dbrN : Nat
  dbwN : Nat
  last_connected : Option ℚ
  events : List CEvent

/-- The initial state of a fresh manager and data store. -/
def cs0 : CState := ⟨0, 0, 0, 0, 0, none, []⟩

/-- `PLCConnection.connect` (`connection.py`): fast path via
`client.get_connected()` — returning `True` when connected, and `False`
at once when the state check raises; otherwise a TCP preflight with
timeout, then `client.connect(...)`, each failure logged and mapped to
`False`; on success store `datetime.now()` into the data store's
`last_connected` and return `True`.  Each branch bumps the counters of
the calls it made and appends their events in order; `connectEnter` marks
the method call itself so attempt counts are observable. -/
def connect (env : Env) (s : CState) : Bool × CState :=
  match env.gc s.gcN with
  | Res.ok true =>
    (true, { s with
      gcN := s.gcN + 1
      events := s.events ++ [CEvent.connectEnter, CEvent.gcCall] })
  | Res.exn =>
    (false, { s with
      gcN := s.gcN + 1
      events := s.events ++ [CEvent.connectEnter, CEvent.gcCall] })
  | Res.ok false =>
    match env.probe s.probeN with
    | Res.exn =>
      (false, { s with
        gcN := s.gcN + 1
        probeN := s.probeN + 1
        events := s.events ++ [CEvent.connectEnter, CEvent.gcCall, CEvent.probeCall] })
    | Res.ok _ =>
      match env.s7c s.s7cN with
      | Res.exn =>
        (false, { s with
          gcN := s.gcN + 1
          probeN := s.probeN + 1
          s7cN := s.s7cN + 1
          events := s.events ++ [CEvent.connectEnter, CEvent.gcCall,
            CEvent.probeCall, CEvent.s7Call] })
      | Res.ok _ =>
        (true, { s with
          gcN := s.gcN + 1
          probeN := s.probeN + 1
          s7cN := s.s7cN + 1
          last_connected := some env.now
          events := s.events ++ [CEvent.connectEnter, CEvent.gcCall,
            CEvent.probeCall, CEvent.s7Call, CEvent.syncSet] })

/-- The initial connectivity check shared by `read` and (modulo its
different exception handling) `write`: `client.get_connected()` with a
raised error mapped to "not connected". -/
def gcCheck (env : Env) (s : CState) : Bool × CState :=
  (match env.gc s.gcN with
    | Res.ok b => b
    | Res.exn => false,
   { s with
     gcN := s.gcN + 1
     events := s.events ++ [CEvent.gcCall] })

/-- The body of `PLCConnection.read` once connectivity is settled:
`db_read` of `buffer_size()` bytes (errors mapped to `False`), feed the
bytes to the data store's `from_bytes`, store a fresh timestamp, return
`True`. -/
def readBody (env : Env) (s : CState) : Bool × CState :=
  match env.dbr s.dbrN with
  | Res.exn =>
    (false, { s with
      dbrN := s.dbrN + 1
      events := s.events ++ [CEvent.dbReadCall] })
  | Res.ok _ =>
    (true, { s with
      dbrN := s.dbrN + 1
      last_connected := some env.now
      events := s.events ++ [CEvent.dbReadCall, CEvent.decode, CEvent.syncSet] })

/-- `PLCConnection.read` (`connection.py`): check `get_connected` (an
exception counts as not connected); when not connected call `connect()`,
and when that first attempt fails call `connect()` once more but return
`False` for this cycle regardless of its outcome; otherwise run the read
body. -/
def read (env : Env) (s : CState) : Bool × CState :=
  if (gcCheck env s).1 then readBody env (gcCheck env s).2
  else
    match connect env (gcCheck env s).2 with
    | (true, s2) => readBody env s2
    | (false, s2) => (false, (connect env s2).2)

/-- The body of `PLCConnection.write` once connectivity is settled:
`db_write` (errors mapped to `False`), store a fresh timestamp, return
`True`. -/
def writeBody (env : Env) (s : CState) : Bool × CState :=
  match env.dbw s.dbwN with
  | Res.exn =>
    (false, { s with
      dbwN := s.dbwN + 1
      events := s.events ++ [CEvent.dbWriteCall] })
  | Res.ok _ =>
    (true, { s with
      dbwN := s.dbwN + 1
      last_connected := some env.now
      events := s.events ++ [CEvent.dbWriteCall, CEvent.syncSet] })

/-- The state after `write`'s opening steps: `to_bytes()` (encode) and the
`get_connected` call. -/
def wgcState (s : CState) : CState :=
  { s with
    gcN := s.gcN + 1
    events := s.events ++ [CEvent.encode, CEvent.gcCall] }

/-- `PLCConnection.write` (`connection.py`): encode the data store via
`to_bytes()` first of all; then call `get_connected` — when that check
itself raises, return `False` at once (unlike `read`, no connect
attempt); when it reports not connected, make a single `connect()`
attempt; then run the write body. -/
def write (env : Env) (s : CState) : Bool × CState :=
  match env.gc s.gcN with
  | Res.exn => (false, wgcState s)
  | Res.ok true => writeBody env (wgcState s)
  | Res.ok false =>
    match connect env (wgcState s) with
    | (true, s2) => writeBody env s2
    | (false, s2) => (false, s2)

/-- Environment in which the handle never reports connected, the first TCP
preflight fails and every later call succeeds: the first `connect()`
attempt fails, the second succeeds. -/
def envRetry : Env :=
  { gc := fun _ => Res.ok false
    probe := fun n => if n = 0 then Res.exn else Res.ok ()
    s7c := fun _ => Res.ok ()
    dbr := fun _ => Res.ok []
    dbw := fun _ => Res.ok ()
    now := 0 }

/-- Environment in which the very first `get_connected` call raises and
every other call succeeds (later state checks report not connected, the
preflight, handshake and block transfers all succeed). -/
def envExn : Env :=
  { gc := fun n => if n = 0 then Res.exn else Res.ok false
    probe := fun _ => Res.ok ()
    s7c := fun _ => Res.ok ()
    dbr := fun _ => Res.ok []
    dbw := fun _ => Res.ok ()
    now := 0 }

/-! ## Claims C3, C4, C8, C9 -/

/-- C3: the 16-bit integer field's coercion clamps rather than wraps or
errors: unsigned values above 65535 map to 65535 and below 0 to 0 (so
100000 yields 65535 and -5 yields 0), signed values above 32767 map to
32767 and below -32768 to -32768 (so 40000 yields 32767). -/
theorem wordField_coercion_clamps :
    (∀ v : Int, 65535 < v → wordClamp false v = 65535) ∧
    (∀ v : Int, v < 0 → wordClamp false v = 0) ∧
    (∀ v : Int, 32767 < v → wordClamp true v = 32767) ∧
    (∀ v : Int, v < -32768 → wordClamp true v = -32768) ∧
    wordClamp false 100000 = 65535 ∧ wordClamp false (-5) = 0 ∧
    wordClamp true 40000 = 32767 := by
  refine ⟨?_, ?_, ?_, ?_, by decide, by decide, by decide⟩ <;>
    intro v h <;> simp only [wordClamp] <;> omega

/-- Witness for C3 at concrete inputs. -/
theorem wordField_coercion_clamps_witness :
    wordClamp false 70000 = 65535 ∧ wordClamp false (-1) = 0 ∧
    wordClamp true 32768 = 32767 ∧ wordClamp true (-40000) = -32768 :=
  ⟨wordField_coercion_clamps.1 70000 (by decide),
   wordField_coercion_clamps.2.1 (-1) (by decide),
   wordField_coercion_clamps.2.2.1 32768 (by decide),
   wordField_coercion_clamps.2.2.2.1 (-40000) (by decide)⟩

/-- C4: for every field kind and every buffer shorter than the range the
field needs (`byte_offset + size`, with size 1 / 2 / 4 for bit / word /
real fields), decoding returns the current value unchanged (and, being a
total function, never raises). -/
theorem read_truncated_buffer_noop (f : PLCField) (data : List Nat) (current : Int)
    (h : data.length < f.byte_offset + f.size) : f.read data current = current := by
  cases f with
  | bool b o =>
    simp only [PLCField.byte_offset, PLCField.size] at h
    simp only [PLCField.read]
    rw [if_pos (by omega)]
  | word b s =>
    simp only [PLCField.byte_offset, PLCField.size] at h
    have hlen : ((data.drop b).take 2).length < 2 := by
      simp only [List.length_take, List.length_drop]
      omega
    simp only [PLCField.read]
    rw [if_pos hlen]
  | real b =>
    simp only [PLCField.byte_offset, PLCField.size] at h
    have hlen : ((data.drop b).take 4).length < 4 := by
      simp only [List.length_take, List.length_drop]
      omega
    simp only [PLCField.read]
    rw [if_pos hlen]

/-- Witness for C4: a real field at offset 2 decoded from a 3-byte buffer
keeps its current value 7. -/
theorem read_truncated_buffer_noop_witness :
    ([1, 2, 3] : List Nat).length < (PLCField.real 2).byte_offset + (PLCField.real 2).size ∧
    (PLCField.real 2).read [1, 2, 3] 7 = 7 :=
  ⟨by decide, read_truncated_buffer_noop (PLCField.real 2) [1, 2, 3] 7 (by decide)⟩

/-- C8: the liveness flag is false while no sync timestamp was ever
recorded; once one is recorded it is true exactly when `now -
lastSynced ≤ IS_CONNECTED_TIMEOUT`; immediately after storing the current
time the instance reports live. -/
theorem is_connected_liveness :
    (∀ now : ℚ, is_connected ⟨none⟩ now = false) ∧
    (∀ t now : ℚ, is_connected ⟨some t⟩ now = true ↔ now - t ≤ IS_CONNECTED_TIMEOUT) ∧
    (∀ (s : PLCDataConn) (now : ℚ),
      is_connected (last_connected_setter s (some now)) now = true) := by
  refine ⟨fun now => rfl, fun t now => by simp [is_connected], fun s now => ?_⟩
  simp [is_connected, last_connected_setter, IS_CONNECTED_TIMEOUT]

/-- C9: one `from_bytes` call performs exactly one notification fan-out:
the subscriber queues change by exactly one `notify_subscribers`
application (never one per field), so each non-full queue gains exactly
one pending notification, however many fields or changes the decode
processed. -/
theorem from_bytes_single_notification (fields : List PLCField) (s : PLCDataState)
    (raw : List Nat) :
    (from_bytes fields s raw).subscribers = (notify_subscribers s).subscribers ∧
    (from_bytes fields s raw).subscribers.length = s.subscribers.length ∧
    (∀ i, i < s.subscribers.length →
      ((from_bytes fields s raw).subscribers.getD i []).length =
        (s.subscribers.getD i []).length +
          (if (s.subscribers.getD i []).length < 100 then 1 else 0)) := by
  refine ⟨rfl, by simp [from_bytes, notify_subscribers], ?_⟩
  intro i hi
  simp only [from_bytes, notify_subscribers, List.getD_eq_getElem?_getD,
    List.getElem?_map, List.getElem?_eq_getElem hi]
  by_cases hc : s.subscribers[i].length < 100
  · simp [hc]
  · simp [hc]

/-- Witness for C9: a two-subscriber instance, one queue holding one
notification and one empty; decoding a one-field record adds exactly one
token to the empty queue. -/
theorem from_bytes_single_notification_witness :
    1 < ([[()], []] : List (List Unit)).length ∧
    ((from_bytes [PLCField.bool 0 0] ⟨[1], [[()], []]⟩ [5]).subscribers.getD 1 []).length =
      (([[()], []] : List (List Unit)).getD 1 []).length +
        (if (([[()], []] : List (List Unit)).getD 1 []).length < 100 then 1 else 0) :=
  ⟨by decide,
   (from_bytes_single_notification [PLCField.bool 0 0] ⟨[1], [[()], []]⟩ [5]).2.2 1 (by decide)⟩

/-! ## Byte-level buffer lemmas -/

theorem byteAt_eq_getElem? (buf : List Nat) (j : Nat) : byteAt buf j = buf[j]?.getD 0 :=
  List.getD_eq_getElem?_getD buf j 0

theorem byteAt_cons_zero (x : Nat) (l : List Nat) : byteAt (x :: l) 0 = x := rfl

theorem byteAt_cons_succ (x : Nat) (l : List Nat) (j : Nat) :
    byteAt (x :: l) (j + 1) = byteAt l j := rfl

theorem byteAt_replicate (n j : Nat) : byteAt (List.replicate n 0) j = 0 := by
  rw [byteAt_eq_getElem?, List.getElem?_replicate]
  split <;> rfl

theorem length_splice (buf v : List Nat) (a : Nat) (h : a + v.length ≤ buf.length) :
    (splice buf a v).length = buf.length := by
  simp only [splice, List.length_append, List.length_take, List.length_drop]
  omega

theorem byteAt_splice (buf v : List Nat) (a j : Nat) (h : a + v.length ≤ buf.length) :
    byteAt (splice buf a v) j =
      if a ≤ j ∧ j < a + v.length then byteAt v (j - a) else byteAt buf j := by
  have hta : (buf.take a).length = a := by
    simp only [List.length_take]
    omega
  have htv : (buf.take a ++ v).length = a + v.length := by
    simp [hta]
  simp only [splice, byteAt_eq_getElem?]
  by_cases h1 : j < a
  · rw [if_neg (by omega)]
    rw [List.getElem?_append, if_pos (by omega : j < (buf.take a ++ v).length)]
    rw [List.getElem?_append, if_pos (by omega : j < (buf.take a).length)]
    rw [List.getElem?_take, if_pos h1]
  · by_cases h2 : j < a + v.length
    · rw [if_pos ⟨by omega, h2⟩]
      rw [List.getElem?_append, if_pos (by omega : j < (buf.take a ++ v).length)]
      rw [List.getElem?_append_right (by omega : (buf.take a).length ≤ j)]
      rw [hta]
    · rw [if_neg (by omega)]
      rw [List.getElem?_append_right (by omega : (buf.take a ++ v).length ≤ j)]
      rw [htv, List.getElem?_drop]
      have hidx : a + v.length + (j - (a + v.length)) = j := by omega
      rw [hidx]

theorem byteAt_set_self (buf : List Nat) (i x : Nat) (h : i < buf.length) :
    byteAt (buf.set i x) i = x := by
  rw [byteAt_eq_getElem?, List.getElem?_set_self h]
  rfl

theorem byteAt_set_ne (buf : List Nat) (i x j : Nat) (h : i ≠ j) :
    byteAt (buf.set i x) j = byteAt buf j := by
  rw [byteAt_eq_getElem?, List.getElem?_set_ne h, byteAt_eq_getElem?]

theorem ByteOk.byteAt_lt {buf : List Nat} (h : ByteOk buf) (j : Nat) :
    byteAt buf j < 256 := by
  rw [byteAt_eq_getElem?]
  cases hj : buf[j]? with
  | none => norm_num
  | some b => exact h b (List.getElem?_mem hj)

theorem ByteOk_replicate (n : Nat) : ByteOk (List.replicate n 0) := by
  intro b hb
  rw [List.mem_replicate] at hb
  omega

theorem ByteOk_splice {buf v : List Nat} {a : Nat} (hb : ByteOk buf)
    (hv : ∀ x ∈ v, x < 256) : ByteOk (splice buf a v) := by
  intro x hx
  simp only [splice, List.mem_append] at hx
  rcases hx with (hx | hx) | hx
  · exact hb x (List.take_subset _ _ hx)
  · exact hv x hx
  · exact hb x (List.drop_subset _ _ hx)

theorem ByteOk_set {buf : List Nat} {i x : Nat} (hb : ByteOk buf) (hx : x < 256) :
    ByteOk (buf.set i x) := by
  intro b hbm
  rcases List.mem_or_eq_of_mem_set hbm with h | h
  · exact hb b h
  · omega

theorem drop_take_two (buf : List Nat) (b : Nat) (h : b + 2 ≤ buf.length) :
    (buf.drop b).take 2 = [byteAt buf b, byteAt buf (b + 1)] := by
  induction buf generalizing b with
  | nil => simp at h
  | cons x rest ih =>
    cases b with
    | zero =>
      cases rest with
      | nil => simp at h
      | cons y rest2 => rfl
    | succ b2 =>
      simp only [List.drop_succ_cons, byteAt_cons_succ]
      exact ih b2 (by simp only [List.length_cons] at h; omega)

theorem drop_take_four (buf : List Nat) (b : Nat) (h : b + 4 ≤ buf.length) :
    (buf.drop b).take 4 =
      [byteAt buf b, byteAt buf (b + 1), byteAt buf (b + 2), byteAt buf (b + 3)] := by
  induction buf generalizing b with
  | nil => simp at h
  | cons x rest ih =>
    cases b with
    | zero =>
      obtain ⟨y1, y2, y3, rest2, rfl⟩ :
          ∃ y1 y2 y3 rest2, rest = y1 :: y2 :: y3 :: rest2 := by
        cases rest with
        | nil => simp at h
        | cons y1 r1 =>
          cases r1 with
          | nil => simp only [List.length_cons, List.length_nil] at h; omega
          | cons y2 r2 =>
            cases r2 with
            | nil => simp only [List.length_cons, List.length_nil] at h; omega
            | cons y3 r3 => exact ⟨y1, y2, y3, r3, rfl⟩
      rfl
    | succ b2 =>
      simp only [List.drop_succ_cons, byteAt_cons_succ]
      exact ih b2 (by simp only [List.length_cons] at h; omega)

/-! ## Bit-level lemmas -/

theorem two_pow_lt_256 {o : Nat} (ho : o < 8) : 2 ^ o < 256 := by
  calc 2 ^ o < 2 ^ 8 := Nat.pow_lt_pow_right (by norm_num) ho
  _ = 256 := by norm_num

theorem shiftRight_and_one (x o : Nat) :
    x >>> o &&& 1 = if x.testBit o then 1 else 0 := by
  rw [Nat.and_one_is_mod, Nat.shiftRight_eq_div_pow, Nat.testBit_to_div_mod]
  rcases Nat.mod_two_eq_zero_or_one (x / 2 ^ o) with h | h <;> simp [h]

theorem testBit_ge_8 {x : Nat} (hx : x < 256) {k : Nat} (hk : 8 ≤ k) :
    x.testBit k = false := by
  apply Nat.testBit_lt_two_pow
  calc x < 256 := hx
  _ = 2 ^ 8 := by norm_num
  _ ≤ 2 ^ k := Nat.pow_le_pow_right (by norm_num) hk

theorem byte_eq_of_testBit {x y : Nat} (hx : x < 256) (hy : y < 256)
    (h : ∀ k, k < 8 → x.testBit k = y.testBit k) : x = y := by
  apply Nat.eq_of_testBit_eq
  intro i
  rcases Nat.lt_or_ge i 8 with hi | hi
  · exact h i hi
  · rw [testBit_ge_8 hx hi, testBit_ge_8 hy hi]

theorem boolNewByte_lt {old : Nat} (hold : old < 256) {o : Nat} (ho : o < 8)
    (v : Int) : boolNewByte o old v < 256 := by
  unfold boolNewByte
  split
  · have h1 : old < 2 ^ 8 := by norm_num at hold ⊢; omega
    have h2 : 2 ^ o < 2 ^ 8 := Nat.pow_lt_pow_right (by norm_num) ho
    have := Nat.or_lt_two_pow h1 h2
    norm_num at this ⊢
    omega
  · calc old &&& (255 ^^^ (2 ^ o % 256)) ≤ old := Nat.and_le_left
    _ < 256 := hold

theorem testBit_boolNewByte_self {o : Nat} (ho : o < 8) (old : Nat) (v : Int) :
    (boolNewByte o old v).testBit o = decide (boolCoerce v = 1) := by
  unfold boolNewByte
  split <;> rename_i hcv
  · rw [Nat.testBit_or, Nat.testBit_two_pow]
    simp [hcv]
  · rw [Nat.mod_eq_of_lt (two_pow_lt_256 ho), Nat.testBit_and, Nat.testBit_xor,
      (show (255 : Nat) = 2 ^ 8 - 1 by norm_num), Nat.testBit_two_pow_sub_one,
      Nat.testBit_two_pow]
    simp [ho, hcv]

theorem testBit_boolNewByte_other {old : Nat} (hold : old < 256) {o : Nat} (ho : o < 8)
    (v : Int) {k : Nat} (hko : k ≠ o) :
    (boolNewByte o old v).testBit k = old.testBit k := by
  have hok : o ≠ k := fun hh => hko hh.symm
  unfold boolNewByte
  split
  · rw [Nat.testBit_or, Nat.testBit_two_pow]
    simp [hok]
  · rcases Nat.lt_or_ge k 8 with hk | hk
    · rw [Nat.mod_eq_of_lt (two_pow_lt_256 ho), Nat.testBit_and, Nat.testBit_xor,
        (show (255 : Nat) = 2 ^ 8 - 1 by norm_num), Nat.testBit_two_pow_sub_one,
        Nat.testBit_two_pow]
      have h1 : decide (o = k) = false := by simp [hok]
      have h2 : decide (k < 8) = true := by simp [hk]
      rw [h1, h2]
      simp
    · rw [testBit_ge_8 hold hk]
      have hand : old &&& (255 ^^^ (2 ^ o % 256)) < 256 :=
        lt_of_le_of_lt Nat.and_le_left hold
      rw [testBit_ge_8 hand hk]

/-! ## Field-level write and read lemmas -/

theorem beNat_two (a c : Nat) : beNat [a, c] = a * 256 + c := by
  simp only [beNat, List.foldl_cons, List.foldl_nil]
  omega

theorem beNat_four (a c d e : Nat) :
    beNat [a, c, d, e] = ((a * 256 + c) * 256 + d) * 256 + e := by
  simp only [beNat, List.foldl_cons, List.foldl_nil]
  omega

theorem wordPat_lt (s : Bool) (v : Int) : wordPat s v < 65536 := by
  unfold wordPat
  have h1 : 0 ≤ (wordClamp s v) % 65536 := Int.emod_nonneg _ (by norm_num)
  have h2 : (wordClamp s v) % 65536 < 65536 := Int.emod_lt_of_pos _ (by norm_num)
  omega

theorem realPat_lt (v : Int) : realPat v < 4294967296 := by
  unfold realPat
  have h1 : 0 ≤ v % 4294967296 := Int.emod_nonneg _ (by norm_num)
  have h2 : v % 4294967296 < 4294967296 := Int.emod_lt_of_pos _ (by norm_num)
  omega

theorem wordToBytes_bytes (s : Bool) (v : Int) : ∀ x ∈ wordToBytes s v, x < 256 := by
  intro x hx
  have := wordPat_lt s v
  simp only [wordToBytes, List.mem_cons, List.not_mem_nil, or_false] at hx
  rcases hx with h | h <;> subst h <;> omega

theorem realToBytes_bytes (v : Int) : ∀ x ∈ realToBytes v, x < 256 := by
  intro x hx
  have := realPat_lt v
  simp only [realToBytes, List.mem_cons, List.not_mem_nil, or_false] at hx
  rcases hx with h | h | h | h <;> subst h <;> omega

theorem wordToBytes_length (s : Bool) (v : Int) : (wordToBytes s v).length = 2 := rfl

theorem realToBytes_length (v : Int) : (realToBytes v).length = 4 := rfl

theorem write_ok (f : PLCField) (buf : List Nat) (v : Int)
    (hv : f.valid) (hok : ByteOk buf) (hfit : f.byteEnd ≤ buf.length)
    (hpk : f.packable v) :
    ∃ buf2, f.write buf v = some buf2 ∧ buf2.length = buf.length ∧ ByteOk buf2 ∧
      (∀ j, ¬ f.inBytes j → byteAt buf2 j = byteAt buf j) ∧
      (∀ j k, k < 8 → ¬ f.touches j k →
        (byteAt buf2 j).testBit k = (byteAt buf j).testBit k) := by
  cases f with
  | bool b o =>
    have ho : o < 8 := hv
    have hb : b < buf.length := by
      simp only [PLCField.byteEnd, PLCField.byte_offset, PLCField.size] at hfit
      omega
    have hold : byteAt buf b < 256 := hok.byteAt_lt b
    have hlt : boolNewByte o (byteAt buf b) v < 256 := boolNewByte_lt hold ho v
    refine ⟨buf.set b (boolNewByte o (byteAt buf b) v), ?_, List.length_set buf b _,
      ByteOk_set hok hlt, ?_, ?_⟩
    · simp only [PLCField.write]
      rw [if_pos hb, if_pos hlt]
    · intro j hj
      have hjb : b ≠ j := by
        simp only [PLCField.inBytes, PLCField.byteEnd, PLCField.byte_offset,
          PLCField.size] at hj
        omega
      exact byteAt_set_ne buf b _ j hjb
    · intro j k hk ht
      by_cases hjb : j = b
      · subst hjb
        rw [byteAt_set_self buf j _ hb]
        have hko : k ≠ o := by
          intro heq
          exact ht ⟨rfl, heq⟩
        exact testBit_boolNewByte_other hold ho v hko
      · rw [byteAt_set_ne buf b _ j (fun hh => hjb hh.symm)]
  | word b s =>
    have hfit2 : b + 2 ≤ buf.length := by
      simp only [PLCField.byteEnd, PLCField.byte_offset, PLCField.size] at hfit
      omega
    have hsl : b + (wordToBytes s v).length ≤ buf.length := by
      rw [wordToBytes_length]
      omega
    refine ⟨splice buf b (wordToBytes s v), rfl, length_splice _ _ _ hsl,
      ByteOk_splice hok (wordToBytes_bytes s v), ?_, ?_⟩
    · intro j hj
      rw [byteAt_splice _ _ _ _ hsl, if_neg]
      intro hcon
      apply hj
      simp only [PLCField.inBytes, PLCField.byteEnd, PLCField.byte_offset, PLCField.size]
      rw [wordToBytes_length] at hcon
      omega
    · intro j k hk ht
      have hbyte : byteAt (splice buf b (wordToBytes s v)) j = byteAt buf j := by
        rw [byteAt_splice _ _ _ _ hsl, if_neg]
        intro hcon
        apply ht
        simp only [PLCField.touches]
        rw [wordToBytes_length] at hcon
        omega
      rw [hbyte]
  | real b =>
    have hfit2 : b + 4 ≤ buf.length := by
      simp only [PLCField.byteEnd, PLCField.byte_offset, PLCField.size] at hfit
      omega
    have hsl : b + (realToBytes v).length ≤ buf.length := by
      rw [realToBytes_length]
      omega
    refine ⟨splice buf b (realToBytes v), ?_, length_splice _ _ _ hsl,
      ByteOk_splice hok (realToBytes_bytes v), ?_, ?_⟩
    · simp only [PLCField.write]
      rw [if_pos (show (0 : Int) ≤ v ∧ v < 4294967296 from hpk)]
    · intro j hj
      rw [byteAt_splice _ _ _ _ hsl, if_neg]
      intro hcon
      apply hj
      simp only [PLCField.inBytes, PLCField.byteEnd, PLCField.byte_offset, PLCField.size]
      rw [realToBytes_length] at hcon
      omega
    · intro j k hk ht
      have hbyte : byteAt (splice buf b (realToBytes v)) j = byteAt buf j := by
        rw [byteAt_splice _ _ _ _ hsl, if_neg]
        intro hcon
        apply ht
        simp only [PLCField.touches]
        rw [realToBytes_length] at hcon
        omega
      rw [hbyte]

theorem byteAt_splice_in (buf v : List Nat) (a j : Nat) (h : a + v.length ≤ buf.length)
    (h1 : a ≤ j) (h2 : j < a + v.length) :
    byteAt (splice buf a v) j = byteAt v (j - a) := by
  rw [byteAt_splice _ _ _ _ h, if_pos ⟨h1, h2⟩]

theorem write_read (f : PLCField) (buf : List Nat) (v : Int)
    (hv : f.valid) (hok : ByteOk buf) (hfit : f.byteEnd ≤ buf.length)
    (hr : f.inRange v) {buf2 : List Nat} (hw : f.write buf v = some buf2) :
    ∀ c, f.read buf2 c = v := by
  intro c
  cases f with
  | bool b o =>
    have ho : o < 8 := hv
    have hb : b < buf.length := by
      simp only [PLCField.byteEnd, PLCField.byte_offset, PLCField.size] at hfit
      omega
    have hold : byteAt buf b < 256 := hok.byteAt_lt b
    have hlt : boolNewByte o (byteAt buf b) v < 256 := boolNewByte_lt hold ho v
    simp only [PLCField.write] at hw
    rw [if_pos hb, if_pos hlt] at hw
    injection hw with hw
    subst hw
    simp only [PLCField.read]
    rw [if_neg (by rw [List.length_set]; omega)]
    rw [byteAt_set_self buf b _ hb, shiftRight_and_one, testBit_boolNewByte_self ho]
    have hr2 : v = 0 ∨ v = 1 := hr
    rcases hr2 with rfl | rfl
    · norm_num [boolCoerce]
    · norm_num [boolCoerce]
  | word b s =>
    have hfit2 : b + 2 ≤ buf.length := by
      simp only [PLCField.byteEnd, PLCField.byte_offset, PLCField.size] at hfit
      omega
    have hsl : b + (wordToBytes s v).length ≤ buf.length := by
      rw [wordToBytes_length]
      omega
    simp only [PLCField.write] at hw
    injection hw with hw
    subst hw
    have hlen2 : (splice buf b (wordToBytes s v)).length = buf.length :=
      length_splice _ _ _ hsl
    have h0 : byteAt (splice buf b (wordToBytes s v)) b = wordPat s v / 256 := by
      rw [byteAt_splice_in _ _ _ _ hsl le_rfl (by rw [wordToBytes_length]; omega),
        Nat.sub_self]
      rfl
    have h1 : byteAt (splice buf b (wordToBytes s v)) (b + 1) = wordPat s v % 256 := by
      rw [byteAt_splice_in _ _ _ _ hsl (by omega) (by rw [wordToBytes_length]; omega),
        (show b + 1 - b = 1 by omega)]
      rfl
    simp only [PLCField.read]
    rw [if_neg (by
      simp only [List.length_take, List.length_drop, hlen2]
      omega)]
    rw [drop_take_two _ b (by rw [hlen2]; omega), h0, h1]
    have hbe : beNat [wordPat s v / 256, wordPat s v % 256] = wordPat s v := by
      rw [beNat_two]
      omega
    rw [hbe]
    cases s with
    | false =>
      have hr2 : 0 ≤ v ∧ v ≤ 65535 := hr
      have hcl : wordClamp false v = v := by
        simp only [wordClamp]
        omega
      rw [if_neg (by simp)]
      unfold wordPat
      rw [hcl]
      omega
    | true =>
      have hr2 : -32768 ≤ v ∧ v ≤ 32767 := hr
      have hcl : wordClamp true v = v := by
        simp only [wordClamp]
        omega
      simp only [Bool.true_and]
      have hup : wordPat true v = ((v % 65536).toNat) := by
        unfold wordPat
        rw [hcl]
      rw [hup]
      split <;> rename_i hcase
      · have hge : 32768 ≤ (v % 65536).toNat := of_decide_eq_true hcase
        omega
      · have hge : ¬ 32768 ≤ (v % 65536).toNat := by
          intro hx
          exact hcase (decide_eq_true hx)
        omega
  | real b =>
    have hfit2 : b + 4 ≤ buf.length := by
      simp only [PLCField.byteEnd, PLCField.byte_offset, PLCField.size] at hfit
      omega
    have hsl : b + (realToBytes v).length ≤ buf.length := by
      rw [realToBytes_length]
      omega
    simp only [PLCField.write] at hw
    rw [if_pos (show (0 : Int) ≤ v ∧ v < 4294967296 from hr)] at hw
    injection hw with hw
    subst hw
    have hlen2 : (splice buf b (realToBytes v)).length = buf.length :=
      length_splice _ _ _ hsl
    have h0 : byteAt (splice buf b (realToBytes v)) b = realPat v / 16777216 % 256 := by
      rw [byteAt_splice_in _ _ _ _ hsl le_rfl (by rw [realToBytes_length]; omega),
        Nat.sub_self]
      rfl
    have h1 : byteAt (splice buf b (realToBytes v)) (b + 1) = realPat v / 65536 % 256 := by
      rw [byteAt_splice_in _ _ _ _ hsl (by omega) (by rw [realToBytes_length]; omega),
        (show b + 1 - b = 1 by omega)]
      rfl
    have h2 : byteAt (splice buf b (realToBytes v)) (b + 2) = realPat v / 256 % 256 := by
      rw [byteAt_splice_in _ _ _ _ hsl (by omega) (by rw [realToBytes_length]; omega),
        (show b + 2 - b = 2 by omega)]
      rfl
    have h3 : byteAt (splice buf b (realToBytes v)) (b + 3) = realPat v % 256 := by
      rw [byteAt_splice_in _ _ _ _ hsl (by omega) (by rw [realToBytes_length]; omega),
        (show b + 3 - b = 3 by omega)]
      rfl
    simp only [PLCField.read]
    rw [if_neg (by
      simp only [List.length_take, List.length_drop, hlen2]
      omega)]
    rw [drop_take_four _ b (by rw [hlen2]; omega), h0, h1, h2, h3]
    have hplt := realPat_lt v
    have hbe : beNat [realPat v / 16777216 % 256, realPat v / 65536 % 256,
        realPat v / 256 % 256, realPat v % 256] = realPat v := by
      rw [beNat_four]
      omega
    rw [hbe]
    have hr2 : 0 ≤ v ∧ v < 4294967296 := hr
    unfold realPat
    omega

theorem read_congr (f : PLCField) (buf buf2 : List Nat)
    (hv : f.valid) (hok : ByteOk buf) (hok2 : ByteOk buf2)
    (hlen : buf2.length = buf.length) (hfit : f.byteEnd ≤ buf.length)
    (hagree : ∀ j k, k < 8 → f.touches j k →
      (byteAt buf2 j).testBit k = (byteAt buf j).testBit k) :
    ∀ c, f.read buf2 c = f.read buf c := by
  intro c
  cases f with
  | bool b o =>
    have ho : o < 8 := hv
    have hb : b < buf.length := by
      simp only [PLCField.byteEnd, PLCField.byte_offset, PLCField.size] at hfit
      omega
    simp only [PLCField.read]
    rw [if_neg (by omega), if_neg (by omega)]
    rw [shiftRight_and_one, shiftRight_and_one, hagree b o ho ⟨rfl, rfl⟩]
  | word b s =>
    have hfit2 : b + 2 ≤ buf.length := by
      simp only [PLCField.byteEnd, PLCField.byte_offset, PLCField.size] at hfit
      omega
    have hbyte : ∀ i, b ≤ i → i < b + 2 → byteAt buf2 i = byteAt buf i := by
      intro i hi1 hi2
      exact byte_eq_of_testBit (hok2.byteAt_lt i) (hok.byteAt_lt i)
        (fun k hk => hagree i k hk ⟨hi1, hi2⟩)
    simp only [PLCField.read]
    rw [drop_take_two buf2 b (by omega), drop_take_two buf b (by omega),
      hbyte b le_rfl (by omega), hbyte (b + 1) (by omega) (by omega)]
  | real b =>
    have hfit2 : b + 4 ≤ buf.length := by
      simp only [PLCField.byteEnd, PLCField.byte_offset, PLCField.size] at hfit
      omega
    have hbyte : ∀ i, b ≤ i → i < b + 4 → byteAt buf2 i = byteAt buf i := by
      intro i hi1 hi2
      exact byte_eq_of_testBit (hok2.byteAt_lt i) (hok.byteAt_lt i)
        (fun k hk => hagree i k hk ⟨hi1, hi2⟩)
    simp only [PLCField.read]
    rw [drop_take_four buf2 b (by omega), drop_take_four buf b (by omega),
      hbyte b le_rfl (by omega), hbyte (b + 1) (by omega) (by omega),
      hbyte (b + 2) (by omega) (by omega), hbyte (b + 3) (by omega) (by omega)]

theorem disj_touches {f g : PLCField} (h : f.disj g) {j k : Nat} (hk : k < 8)
    (hf : f.touches j k) : ¬ g.touches j k := by
  intro hg
  cases f <;> cases g <;>
    simp only [PLCField.disj] at h <;>
    simp only [PLCField.touches] at hf hg <;>
    omega

theorem inRange_packable {f : PLCField} {v : Int} (h : f.inRange v) : f.packable v := by
  cases f with
  | bool b o => trivial
  | word b s => trivial
  | real b => exact h

/-! ## Whole-record lemmas: the `to_bytes` loop -/

theorem byteEnd_le_buffer_size {f : PLCField} {fields : List PLCField} (h : f ∈ fields) :
    f.byteEnd ≤ buffer_size fields := by
  induction fields with
  | nil => simp at h
  | cons g rest ih =>
    rw [List.mem_cons] at h
    simp only [buffer_size, List.map_cons, List.foldr_cons]
    rcases h with rfl | h
    · exact le_max_left _ _
    · exact le_trans (ih h) (le_max_right _ _)

theorem pairwise_zip_left (l : List PLCField) (l2 : List Int)
    (h : l.Pairwise PLCField.disj) :
    (l.zip l2).Pairwise (fun a b => a.1.disj b.1) := by
  induction l generalizing l2 with
  | nil => simp
  | cons a rest ih =>
    cases l2 with
    | nil => simp
    | cons v vs =>
      rw [List.pairwise_cons] at h
      rw [List.zip_cons_cons, List.pairwise_cons]
      refine ⟨?_, ih vs h.2⟩
      intro p hp
      exact h.1 p.1 (List.of_mem_zip hp).1

theorem writeAll_ok (fvs : List (PLCField × Int)) (buf : List Nat)
    (hv : ∀ fv ∈ fvs, fv.1.valid) (hfit : ∀ fv ∈ fvs, fv.1.byteEnd ≤ buf.length)
    (hpk : ∀ fv ∈ fvs, fv.1.packable fv.2) (hok : ByteOk buf) :
    ∃ buf2, writeAll fvs buf = some buf2 ∧ buf2.length = buf.length ∧ ByteOk buf2 ∧
      (∀ j, (∀ fv ∈ fvs, ¬ fv.1.inBytes j) → byteAt buf2 j = byteAt buf j) ∧
      (∀ j k, k < 8 → (∀ fv ∈ fvs, ¬ fv.1.touches j k) →
        (byteAt buf2 j).testBit k = (byteAt buf j).testBit k) := by
  induction fvs generalizing buf with
  | nil => exact ⟨buf, rfl, rfl, hok, fun j _ => rfl, fun j k _ _ => rfl⟩
  | cons fv rest ih =>
    obtain ⟨buf1, hw1, hlen1, hok1, hbyte1, hbit1⟩ :=
      write_ok fv.1 buf fv.2 (hv fv (List.mem_cons_self fv rest))
        hok (hfit fv (List.mem_cons_self fv rest))
        (hpk fv (List.mem_cons_self fv rest))
    obtain ⟨buf2, hw2, hlen2, hok2, hbyte2, hbit2⟩ :=
      ih buf1 (fun g hg => hv g (List.mem_cons_of_mem fv hg))
        (fun g hg => by rw [hlen1]; exact hfit g (List.mem_cons_of_mem fv hg))
        (fun g hg => hpk g (List.mem_cons_of_mem fv hg)) hok1
    refine ⟨buf2, ?_, by omega, hok2, ?_, ?_⟩
    · simp only [writeAll, hw1]
      exact hw2
    · intro j hj
      rw [hbyte2 j (fun g hg => hj g (List.mem_cons_of_mem fv hg)),
        hbyte1 j (hj fv (List.mem_cons_self fv rest))]
    · intro j k hk hj
      rw [hbit2 j k hk (fun g hg => hj g (List.mem_cons_of_mem fv hg)),
        hbit1 j k hk (hj fv (List.mem_cons_self fv rest))]

theorem writeAll_reads (fvs : List (PLCField × Int)) (buf : List Nat)
    (hv : ∀ fv ∈ fvs, fv.1.valid) (hfit : ∀ fv ∈ fvs, fv.1.byteEnd ≤ buf.length)
    (hok : ByteOk buf) (hr : ∀ fv ∈ fvs, fv.1.inRange fv.2)
    (hp : fvs.Pairwise (fun a b => a.1.disj b.1))
    {buf2 : List Nat} (hw : writeAll fvs buf = some buf2) :
    ∀ fv ∈ fvs, ∀ c, fv.1.read buf2 c = fv.2 := by
  induction fvs generalizing buf with
  | nil => intro fv h; simp at h
  | cons a rest ih =>
    rw [List.pairwise_cons] at hp
    obtain ⟨buf1, hw1, hlen1, hok1, hbyte1, hbit1⟩ :=
      write_ok a.1 buf a.2 (hv a (List.mem_cons_self a rest))
        hok (hfit a (List.mem_cons_self a rest))
        (inRange_packable (hr a (List.mem_cons_self a rest)))
    simp only [writeAll, hw1] at hw
    have hvr : ∀ fv ∈ rest, fv.1.valid := fun g hg => hv g (List.mem_cons_of_mem a hg)
    have hfitr : ∀ fv ∈ rest, fv.1.byteEnd ≤ buf1.length := fun g hg => by
      rw [hlen1]
      exact hfit g (List.mem_cons_of_mem a hg)
    obtain ⟨buf2x, hw2, hlen2, hok2, hbyte2, hbit2⟩ := writeAll_ok rest buf1 hvr hfitr
      (fun g hg => inRange_packable (hr g (List.mem_cons_of_mem a hg))) hok1
    have hbuf2 : buf2x = buf2 := by
      rw [hw2] at hw
      injection hw
    subst hbuf2
    intro fv hfv c
    rw [List.mem_cons] at hfv
    rcases hfv with rfl | hfv
    · have hread1 := write_read fv.1 buf fv.2 (hv fv (List.mem_cons_self fv rest)) hok
        (hfit fv (List.mem_cons_self fv rest)) (hr fv (List.mem_cons_self fv rest)) hw1
      have hagree : ∀ j k, k < 8 → fv.1.touches j k →
          (byteAt buf2x j).testBit k = (byteAt buf1 j).testBit k := by
        intro j k hk ht
        exact hbit2 j k hk (fun g hg => disj_touches (hp.1 g hg) hk ht)
      rw [read_congr fv.1 buf1 buf2x (hv fv (List.mem_cons_self fv rest)) hok1 hok2
        (by omega) (by rw [hlen1]; exact hfit fv (List.mem_cons_self fv rest)) hagree c]
      exact hread1 c
    · exact ih buf1 hvr hfitr hok1
        (fun g hg => hr g (List.mem_cons_of_mem a hg)) hp.2 hw2 fv hfv c

/-! ## Claims C1, C2, C10 -/

/-- Commuting two bit updates of the same byte at distinct bit positions. -/
theorem boolNewByte_comm {old : Nat} (hold : old < 256) {o1 o2 : Nat}
    (ho1 : o1 < 8) (ho2 : o2 < 8) (hne : o1 ≠ o2) (v1 v2 : Int) :
    boolNewByte o2 (boolNewByte o1 old v1) v2 =
      boolNewByte o1 (boolNewByte o2 old v2) v1 := by
  have h1 : boolNewByte o1 old v1 < 256 := boolNewByte_lt hold ho1 v1
  have h2 : boolNewByte o2 old v2 < 256 := boolNewByte_lt hold ho2 v2
  apply Nat.eq_of_testBit_eq
  intro i
  by_cases hi1 : i = o1
  · subst hi1
    rw [testBit_boolNewByte_other h1 ho2 v2 hne]
    rw [testBit_boolNewByte_self ho1, testBit_boolNewByte_self ho1]
  · by_cases hi2 : i = o2
    · subst hi2
      rw [testBit_boolNewByte_self ho2]
      rw [testBit_boolNewByte_other h2 ho1 v1 (fun hh => hne hh.symm)]
      rw [testBit_boolNewByte_self ho2]
    · rw [testBit_boolNewByte_other h1 ho2 v2 hi2,
        testBit_boolNewByte_other hold ho1 v1 hi1,
        testBit_boolNewByte_other h2 ho1 v1 hi1,
        testBit_boolNewByte_other hold ho2 v2 hi2]

/-- C2: encoding a bit field (valid `bit_offset`, byte buffer long enough
to contain its byte) changes at most the single bit at `bit_offset` of the
byte at `byte_offset` — all other bytes and the other 7 bits of that byte
are unchanged — and encoding two bit fields that share a byte but have
different bit offsets into the same buffer commutes, yielding the same
final buffer (hence the same final byte) in either order. -/
theorem boolField_write_isolation :
    (∀ (b o : Nat) (buf : List Nat) (v : Int), o < 8 → ByteOk buf → b < buf.length →
      ∃ buf2, (PLCField.bool b o).write buf v = some buf2 ∧
        buf2.length = buf.length ∧
        (∀ j, j ≠ b → byteAt buf2 j = byteAt buf j) ∧
        (∀ k, k < 8 → k ≠ o → (byteAt buf2 b).testBit k = (byteAt buf b).testBit k)) ∧
    (∀ (b o1 o2 : Nat) (buf : List Nat) (v1 v2 : Int), o1 < 8 → o2 < 8 → o1 ≠ o2 →
      ByteOk buf → b < buf.length →
      ((PLCField.bool b o1).write buf v1).bind (fun m => (PLCField.bool b o2).write m v2) =
        ((PLCField.bool b o2).write buf v2).bind
          (fun m => (PLCField.bool b o1).write m v1)) := by
  constructor
  · intro b o buf v ho hok hb
    obtain ⟨buf2, hw, hlen, hok2, hbyte, hbit⟩ := write_ok (PLCField.bool b o) buf v ho hok
      (by simp only [PLCField.byteEnd, PLCField.byte_offset, PLCField.size]; omega)
      trivial
    refine ⟨buf2, hw, hlen, ?_, ?_⟩
    · intro j hj
      apply hbyte
      simp only [PLCField.inBytes, PLCField.byteEnd, PLCField.byte_offset, PLCField.size]
      omega
    · intro k hk hko
      apply hbit b k hk
      intro ht
      exact hko ht.2
  · intro b o1 o2 buf v1 v2 ho1 ho2 hne hok hb
    have hold : byteAt buf b < 256 := hok.byteAt_lt b
    have h1 : boolNewByte o1 (byteAt buf b) v1 < 256 := boolNewByte_lt hold ho1 v1
    have h2 : boolNewByte o2 (byteAt buf b) v2 < 256 := boolNewByte_lt hold ho2 v2
    have hw1 : (PLCField.bool b o1).write buf v1 =
        some (buf.set b (boolNewByte o1 (byteAt buf b) v1)) := by
      simp only [PLCField.write]
      rw [if_pos hb, if_pos h1]
    have hw2 : (PLCField.bool b o2).write buf v2 =
        some (buf.set b (boolNewByte o2 (byteAt buf b) v2)) := by
      simp only [PLCField.write]
      rw [if_pos hb, if_pos h2]
    have hL : ((PLCField.bool b o1).write buf v1).bind
        (fun m => (PLCField.bool b o2).write m v2) =
        some (buf.set b (boolNewByte o2 (boolNewByte o1 (byteAt buf b) v1) v2)) := by
      rw [hw1]
      show (PLCField.bool b o2).write (buf.set b (boolNewByte o1 (byteAt buf b) v1)) v2 = _
      simp only [PLCField.write]
      rw [byteAt_set_self buf b _ hb]
      rw [if_pos (by rw [List.length_set]; exact hb),
        if_pos (boolNewByte_lt h1 ho2 v2), List.set_set]
    have hR : ((PLCField.bool b o2).write buf v2).bind
        (fun m => (PLCField.bool b o1).write m v1) =
        some (buf.set b (boolNewByte o1 (boolNewByte o2 (byteAt buf b) v2) v1)) := by
      rw [hw2]
      show (PLCField.bool b o1).write (buf.set b (boolNewByte o2 (byteAt buf b) v2)) v1 = _
      simp only [PLCField.write]
      rw [byteAt_set_self buf b _ hb]
      rw [if_pos (by rw [List.length_set]; exact hb),
        if_pos (boolNewByte_lt h2 ho1 v1), List.set_set]
    rw [hL, hR, boolNewByte_comm hold ho1 ho2 hne v1 v2]

/-- Witness for C2: in buffer `[5]` (bits 0 and 2 set), setting bit 1 and
clearing bit 2 in either order. -/
theorem boolField_write_isolation_witness :
    (∃ buf2, (PLCField.bool 0 1).write [5] 1 = some buf2 ∧
      buf2.length = ([5] : List Nat).length ∧
      (∀ j, j ≠ 0 → byteAt buf2 j = byteAt [5] j) ∧
      (∀ k, k < 8 → k ≠ 1 → (byteAt buf2 0).testBit k = (byteAt [5] 0).testBit k)) ∧
    ((PLCField.bool 0 1).write [5] 1).bind (fun m => (PLCField.bool 0 2).write m 0) =
      ((PLCField.bool 0 2).write [5] 0).bind (fun m => (PLCField.bool 0 1).write m 1) :=
  ⟨boolField_write_isolation.1 0 1 [5] 1 (by decide) (by decide) (by decide),
   boolField_write_isolation.2 0 1 2 [5] 1 0 (by decide) (by decide) (by decide)
     (by decide) (by decide)⟩

/-- C1 (amended): for a schema of valid fields with pairwise disjoint
footprints and an in-range value for every field, `to_bytes` succeeds and
`from_bytes` on its buffer reproduces every stored value exactly (REAL
values are modelled by their binary32 bit patterns, on which the byte
round-trip is exact for 32-bit-representable values). -/
theorem roundtrip_disjoint_fields (fields : List PLCField) (values : List Int)
    (hlen : values.length = fields.length)
    (hv : ∀ f ∈ fields, f.valid)
    (hdisj : fields.Pairwise PLCField.disj)
    (hr : ∀ fv ∈ fields.zip values, fv.1.inRange fv.2) :
    ∃ buf, to_bytes fields values = some buf ∧
      from_bytesVals fields values buf = values := by
  have hv2 : ∀ fv ∈ fields.zip values, fv.1.valid :=
    fun fv hfv => hv fv.1 (List.of_mem_zip hfv).1
  have hfit : ∀ fv ∈ fields.zip values,
      fv.1.byteEnd ≤ (List.replicate (buffer_size fields) 0).length := by
    intro fv hfv
    rw [List.length_replicate]
    exact byteEnd_le_buffer_size (List.of_mem_zip hfv).1
  obtain ⟨buf, hw, hlen2, hok2, hbyte, hbit⟩ :=
    writeAll_ok (fields.zip values) _ hv2 hfit
      (fun fv hfv => inRange_packable (hr fv hfv)) (ByteOk_replicate _)
  have hreads := writeAll_reads (fields.zip values) _ hv2 hfit (ByteOk_replicate _)
    hr (pairwise_zip_left fields values hdisj) hw
  refine ⟨buf, hw, ?_⟩
  unfold from_bytesVals
  rw [List.map_congr_left (fun fv hfv => hreads fv hfv fv.2)]
  exact List.map_snd_zip fields values (le_of_eq hlen)

/-- Witness for C1 (amended): a bit, a signed word and a real field at
disjoint offsets round-trip through `to_bytes` / `from_bytes`. -/
theorem roundtrip_disjoint_fields_witness :
    ∃ buf, to_bytes [PLCField.bool 0 0, PLCField.word 1 true, PLCField.real 3]
        [1, -2, 5] = some buf ∧
      from_bytesVals [PLCField.bool 0 0, PLCField.word 1 true, PLCField.real 3]
        [1, -2, 5] buf = [1, -2, 5] :=
  roundtrip_disjoint_fields [PLCField.bool 0 0, PLCField.word 1 true, PLCField.real 3]
    [1, -2, 5] (by decide) (by decide) (by decide) (by decide)

/-- Counterexample to C1 as stated: the claim quantifies over every record
schema, but for the schema with two bit fields at identical byte and bit
offsets and in-range values `[0, 1]`, `from_bytes` after `to_bytes` yields
`[1, 1]`: the first field's stored value changed. -/
theorem roundtrip_counterexample :
    (∀ fv ∈ ([PLCField.bool 0 0, PLCField.bool 0 0].zip ([0, 1] : List Int)),
      fv.1.inRange fv.2) ∧
    (to_bytes [PLCField.bool 0 0, PLCField.bool 0 0] [0, 1]).isSome = true ∧
    from_bytesVals [PLCField.bool 0 0, PLCField.bool 0 0] [0, 1]
      ((to_bytes [PLCField.bool 0 0, PLCField.bool 0 0] [0, 1]).getD []) ≠
        ([0, 1] : List Int) :=
  ⟨by decide, by decide, by decide⟩

/-- C10 (amended): for a schema of valid fields and any packable stored
values — arbitrary integers for bit and word fields, whose writes coerce;
values with a binary32 pattern for real fields, whose write raises
`OverflowError` on the rest — `to_bytes` returns a buffer of length
exactly `buffer_size()` (0 for an empty schema) in which every byte
position not covered by any field's `[byte_offset, byte_offset + size)`
range is zero. -/
theorem to_bytes_length_and_gap_zeros (fields : List PLCField) (values : List Int)
    (hlen : values.length = fields.length) (hv : ∀ f ∈ fields, f.valid)
    (hpk : ∀ fv ∈ fields.zip values, fv.1.packable fv.2) :
    ∃ buf, to_bytes fields values = some buf ∧ buf.length = buffer_size fields ∧
      ∀ j, (∀ f ∈ fields, ¬ f.inBytes j) → byteAt buf j = 0 := by
  have hv2 : ∀ fv ∈ fields.zip values, fv.1.valid :=
    fun fv hfv => hv fv.1 (List.of_mem_zip hfv).1
  have hfit : ∀ fv ∈ fields.zip values,
      fv.1.byteEnd ≤ (List.replicate (buffer_size fields) 0).length := by
    intro fv hfv
    rw [List.length_replicate]
    exact byteEnd_le_buffer_size (List.of_mem_zip hfv).1
  obtain ⟨buf, hw, hlen2, hok2, hbyte, hbit⟩ :=
    writeAll_ok (fields.zip values) _ hv2 hfit hpk (ByteOk_replicate _)
  refine ⟨buf, hw, by rw [hlen2, List.length_replicate], ?_⟩
  intro j hj
  rw [hbyte j (fun fv hfv => hj fv.1 (List.of_mem_zip hfv).1), byteAt_replicate]

/-- Witness for C10 (amended): a bit field at byte 0 and a real field at
bytes 3-6, an out-of-range bit value (coerced) and a packable real value:
buffer length 7 and the gap bytes 1 and 2 are zero. -/
theorem to_bytes_length_and_gap_zeros_witness :
    ∃ buf, to_bytes [PLCField.bool 0 0, PLCField.real 3] [9, 7] = some buf ∧
      buf.length = buffer_size [PLCField.bool 0 0, PLCField.real 3] ∧
      ∀ j, (∀ f ∈ [PLCField.bool 0 0, PLCField.real 3], ¬ f.inBytes j) →
        byteAt buf j = 0 :=
  to_bytes_length_and_gap_zeros [PLCField.bool 0 0, PLCField.real 3] [9, 7]
    (by decide) (by decide) (by decide)

/-- Counterexample to C10 as stated: the claim quantifies over every
combination of stored field values, but `PLCRealField.coerce` is a plain
`float(value)`, so a real field can store a finite value beyond the
binary32 range (such as Python's `1e39`; in the pattern model, a value
with no binary32 pattern), and on it `struct.pack(">f", ...)` inside
`to_bytes` raises `OverflowError` instead of returning a buffer. -/
theorem to_bytes_overflow_counterexample :
    buffer_size [PLCField.real 0] = 4 ∧
    to_bytes [PLCField.real 0] [4294967296] = none :=
  ⟨rfl, rfl⟩

/-! ## Connection manager lemmas and claims C5, C6, C7 -/

theorem countE_append (e : CEvent) (l1 l2 : List CEvent) :
    countE e (l1 ++ l2) = countE e l1 + countE e l2 := by
  induction l1 with
  | nil => simp [countE]
  | cons x rest ih =>
    simp only [List.cons_append, countE, List.append_eq, ih]
    omega

theorem gcCheck_events (env : Env) (s : CState) :
    (gcCheck env s).2.events = s.events ++ [CEvent.gcCall] := rfl

theorem connect_counts (env : Env) (s : CState) :
    countE CEvent.connectEnter (connect env s).2.events =
      countE CEvent.connectEnter s.events + 1 ∧
    countE CEvent.dbReadCall (connect env s).2.events =
      countE CEvent.dbReadCall s.events ∧
    countE CEvent.dbWriteCall (connect env s).2.events =
      countE CEvent.dbWriteCall s.events := by
  unfold connect
  cases env.gc s.gcN with
  | exn => refine ⟨?_, ?_, ?_⟩ <;> simp [countE_append, countE]
  | ok b =>
    cases b with
    | true => refine ⟨?_, ?_, ?_⟩ <;> simp [countE_append, countE]
    | false =>
      cases env.probe s.probeN with
      | exn => refine ⟨?_, ?_, ?_⟩ <;> simp [countE_append, countE]
      | ok u =>
        cases env.s7c s.s7cN with
        | exn => refine ⟨?_, ?_, ?_⟩ <;> simp [countE_append, countE]
        | ok u2 => refine ⟨?_, ?_, ?_⟩ <;> simp [countE_append, countE]

theorem readBody_counts (env : Env) (s : CState) :
    countE CEvent.dbReadCall (readBody env s).2.events =
      countE CEvent.dbReadCall s.events + 1 ∧
    countE CEvent.connectEnter (readBody env s).2.events =
      countE CEvent.connectEnter s.events := by
  unfold readBody
  cases env.dbr s.dbrN with
  | exn => refine ⟨?_, ?_⟩ <;> simp [countE_append, countE]
  | ok u => refine ⟨?_, ?_⟩ <;> simp [countE_append, countE]

theorem writeBody_counts (env : Env) (s : CState) :
    countE CEvent.dbWriteCall (writeBody env s).2.events =
      countE CEvent.dbWriteCall s.events + 1 ∧
    countE CEvent.connectEnter (writeBody env s).2.events =
      countE CEvent.connectEnter s.events := by
  unfold writeBody
  cases env.dbw s.dbwN with
  | exn => refine ⟨?_, ?_⟩ <;> simp [countE_append, countE]
  | ok u => refine ⟨?_, ?_⟩ <;> simp [countE_append, countE]

/-- C5 (amended): `read()` on a not-connected manager attempts `connect()`
at most twice; whenever the first `connect()` attempt fails it returns
false without attempting the block read — regardless of the second
attempt's outcome — after exactly two attempts; the block read proceeds
exactly when the handle already reported connected or the first attempt
succeeded. -/
theorem read_retry_policy (env : Env) (s : CState) :
    (countE CEvent.connectEnter (read env s).2.events ≤
      countE CEvent.connectEnter s.events + 2) ∧
    ((gcCheck env s).1 = false → (connect env (gcCheck env s).2).1 = false →
      (read env s).1 = false ∧
      countE CEvent.dbReadCall (read env s).2.events =
        countE CEvent.dbReadCall s.events ∧
      countE CEvent.connectEnter (read env s).2.events =
        countE CEvent.connectEnter s.events + 2) ∧
    ((gcCheck env s).1 = true ∨
        ((gcCheck env s).1 = false ∧ (connect env (gcCheck env s).2).1 = true) →
      countE CEvent.dbReadCall (read env s).2.events =
        countE CEvent.dbReadCall s.events + 1) := by
  rcases hgc : gcCheck env s with ⟨b, s1⟩
  have hs1ev : s1.events = s.events ++ [CEvent.gcCall] := by
    rw [← gcCheck_events env s, hgc]
  have hs1c : countE CEvent.connectEnter s1.events = countE CEvent.connectEnter s.events := by
    rw [hs1ev, countE_append]
    simp [countE]
  have hs1r : countE CEvent.dbReadCall s1.events = countE CEvent.dbReadCall s.events := by
    rw [hs1ev, countE_append]
    simp [countE]
  cases b with
  | true =>
    have hread : read env s = readBody env s1 := by
      simp [read, hgc]
    rw [hread]
    refine ⟨?_, ?_, ?_⟩
    · rw [(readBody_counts env s1).2, hs1c]
      omega
    · intro hfalse
      simp at hfalse
    · intro _
      rw [(readBody_counts env s1).1, hs1r]
  | false =>
    rcases hc1 : connect env s1 with ⟨c1, s2⟩
    have hs2c : countE CEvent.connectEnter s2.events =
        countE CEvent.connectEnter s.events + 1 := by
      have := (connect_counts env s1).1
      rw [hc1] at this
      rw [this, hs1c]
    have hs2r : countE CEvent.dbReadCall s2.events = countE CEvent.dbReadCall s.events := by
      have := (connect_counts env s1).2.1
      rw [hc1] at this
      rw [this, hs1r]
    cases c1 with
    | true =>
      have hread : read env s = readBody env s2 := by
        simp [read, hgc, hc1]
      rw [hread]
      refine ⟨?_, ?_, ?_⟩
      · rw [(readBody_counts env s2).2, hs2c]
        omega
      · intro _ hfalse
        simp at hfalse
      · intro _
        rw [(readBody_counts env s2).1, hs2r]
    | false =>
      have hread : read env s = (false, (connect env s2).2) := by
        simp [read, hgc, hc1]
      rw [hread]
      have hs3c : countE CEvent.connectEnter (connect env s2).2.events =
          countE CEvent.connectEnter s.events + 2 := by
        rw [(connect_counts env s2).1, hs2c]
      have hs3r : countE CEvent.dbReadCall (connect env s2).2.events =
          countE CEvent.dbReadCall s.events := by
        rw [(connect_counts env s2).2.1, hs2r]
      refine ⟨?_, ?_, ?_⟩
      · show countE CEvent.connectEnter (connect env s2).2.events ≤ _
        omega
      · intro _ _
        exact ⟨rfl, hs3r, hs3c⟩
      · intro hor
        rcases hor with htrue | ⟨_, htrue⟩
        · simp at htrue
        · simp at htrue

/-- Witness for C5 (amended), in the environment where the handle reports
connected at once: no connect attempt and one block read. -/
theorem read_retry_policy_witness :
    (gcCheck ⟨fun _ => Res.ok true, fun _ => Res.ok (), fun _ => Res.ok (),
        fun _ => Res.ok [], fun _ => Res.ok (), 0⟩ cs0).1 = true ∧
    countE CEvent.dbReadCall
      (read ⟨fun _ => Res.ok true, fun _ => Res.ok (), fun _ => Res.ok (),
        fun _ => Res.ok [], fun _ => Res.ok (), 0⟩ cs0).2.events =
      countE CEvent.dbReadCall cs0.events + 1 :=
  ⟨rfl,
   (read_retry_policy ⟨fun _ => Res.ok true, fun _ => Res.ok (), fun _ => Res.ok (),
      fun _ => Res.ok [], fun _ => Res.ok (), 0⟩ cs0).2.2 (Or.inl rfl)⟩

/-- Counterexample to C5 as stated: in `envRetry` the first `connect()`
attempt fails and the second succeeds, yet `read` returns false and never
attempts the block read — the claim's "when the second connect attempt
succeeds the read proceeds" fails on the code. -/
theorem read_retry_counterexample :
    (connect envRetry (connect envRetry (gcCheck envRetry cs0).2).2).1 = true ∧
    (read envRetry cs0).1 = false ∧
    countE CEvent.dbReadCall (read envRetry cs0).2.events = 0 :=
  ⟨rfl, rfl, rfl⟩

/-- C6 (amended): when the `get_connected` state check inside `connect()`
raises, `connect()` swallows the error and returns false at once — it does
not proceed to the TCP probe or the protocol-level connect. -/
theorem connect_statecheck_exn (env : Env) (s : CState)
    (h : env.gc s.gcN = Res.exn) :
    (connect env s).1 = false ∧
    countE CEvent.probeCall (connect env s).2.events =
      countE CEvent.probeCall s.events ∧
    countE CEvent.s7Call (connect env s).2.events =
      countE CEvent.s7Call s.events := by
  unfold connect
  rw [h]
  refine ⟨rfl, ?_, ?_⟩ <;> simp [countE_append, countE]

/-- Witness for C6 (amended) in the environment whose first state check
raises. -/
theorem connect_statecheck_exn_witness :
    envExn.gc cs0.gcN = Res.exn ∧
    (connect envExn cs0).1 = false ∧
    countE CEvent.probeCall (connect envExn cs0).2.events =
      countE CEvent.probeCall cs0.events ∧
    countE CEvent.s7Call (connect envExn cs0).2.events =
      countE CEvent.s7Call cs0.events :=
  ⟨rfl, connect_statecheck_exn envExn cs0 rfl⟩

/-- Counterexample to C6 as stated: in `envExn` the state check raises
while the TCP probe would succeed, yet `connect` performs no probe and no
protocol connect and returns false — the claimed "still proceeds to the
bounded-time connectivity probe" fails on the code. -/
theorem connect_statecheck_counterexample :
    envExn.probe 0 = Res.ok () ∧ envExn.s7c 0 = Res.ok () ∧
    (connect envExn cs0).1 = false ∧
    countE CEvent.probeCall (connect envExn cs0).2.events = 0 ∧
    countE CEvent.s7Call (connect envExn cs0).2.events = 0 :=
  ⟨rfl, rfl, rfl, rfl, rfl⟩

/-- C7 (amended): `write()` always encodes via `to_bytes()` before the
connectivity check; it makes at most a single `connect()` attempt; when
the `get_connected` check itself raises it returns false at once with no
connect attempt and no block write (unlike `read`, which proceeds to
connect attempts); when not connected and the single attempt fails it
returns false without writing; and on a successful block write it stores
a fresh sync timestamp (the log ends with the sync event) and returns
true. -/
theorem write_policy (env : Env) (s : CState) :
    (∃ rest, (write env s).2.events =
      s.events ++ CEvent.encode :: CEvent.gcCall :: rest) ∧
    (countE CEvent.connectEnter (write env s).2.events ≤
      countE CEvent.connectEnter s.events + 1) ∧
    (env.gc s.gcN = Res.exn →
      (write env s).1 = false ∧
      countE CEvent.connectEnter (write env s).2.events =
        countE CEvent.connectEnter s.events ∧
      countE CEvent.dbWriteCall (write env s).2.events =
        countE CEvent.dbWriteCall s.events) ∧
    (env.gc s.gcN = Res.ok false → (connect env (wgcState s)).1 = false →
      (write env s).1 = false ∧
      countE CEvent.dbWriteCall (write env s).2.events =
        countE CEvent.dbWriteCall s.events) ∧
    ((write env s).1 = true →
      (write env s).2.last_connected = some env.now ∧
      (write env s).2.events.getLast? = some CEvent.syncSet) := by
  have hwgc_ev : (wgcState s).events = s.events ++ [CEvent.encode, CEvent.gcCall] := rfl
  have hwgc_c : countE CEvent.connectEnter (wgcState s).events =
      countE CEvent.connectEnter s.events := by
    rw [hwgc_ev, countE_append]
    simp [countE]
  have hwgc_w : countE CEvent.dbWriteCall (wgcState s).events =
      countE CEvent.dbWriteCall s.events := by
    rw [hwgc_ev, countE_append]
    simp [countE]
  cases hgc : env.gc s.gcN with
  | exn =>
    have hw : write env s = (false, wgcState s) := by
      unfold write
      rw [hgc]
    rw [hw]
    refine ⟨⟨[], by rw [hwgc_ev]⟩, by rw [hwgc_c]; omega,
      fun _ => ⟨rfl, hwgc_c, hwgc_w⟩, ?_, ?_⟩
    · intro hcon
      simp at hcon
    · intro hcon
      simp at hcon
  | ok b =>
    cases b with
    | true =>
      have hw : write env s = writeBody env (wgcState s) := by
        unfold write
        rw [hgc]
      rw [hw]
      refine ⟨?_, ?_, ?_, ?_, ?_⟩
      · cases hdw : env.dbw (wgcState s).dbwN with
        | exn =>
          refine ⟨[CEvent.dbWriteCall], ?_⟩
          unfold writeBody
          rw [hdw]
          simp [wgcState]
        | ok u =>
          refine ⟨[CEvent.dbWriteCall, CEvent.syncSet], ?_⟩
          unfold writeBody
          rw [hdw]
          simp [wgcState]
      · rw [(writeBody_counts env (wgcState s)).2, hwgc_c]
        omega
      · intro hcon
        simp at hcon
      · intro hcon
        simp at hcon
      · intro htrue
        unfold writeBody at htrue ⊢
        cases hdw : env.dbw (wgcState s).dbwN with
        | exn =>
          rw [hdw] at htrue
          simp at htrue
        | ok u =>
          refine ⟨rfl, ?_⟩
          show ((wgcState s).events ++ [CEvent.dbWriteCall, CEvent.syncSet]).getLast? =
            some CEvent.syncSet
          rw [List.getLast?_append]
          rfl
    | false =>
      rcases hc1 : connect env (wgcState s) with ⟨c1, s2⟩
      have hs2ev : ∃ t, s2.events = s.events ++ CEvent.encode :: CEvent.gcCall :: t := by
        have : ∃ t, (connect env (wgcState s)).2.events = (wgcState s).events ++ t := by
          unfold connect
          cases env.gc (wgcState s).gcN with
          | exn => exact ⟨_, rfl⟩
          | ok b2 =>
            cases b2 with
            | true => exact ⟨_, rfl⟩
            | false =>
              cases env.probe (wgcState s).probeN with
              | exn => exact ⟨_, rfl⟩
              | ok u =>
                cases env.s7c (wgcState s).s7cN with
                | exn => exact ⟨_, rfl⟩
                | ok u2 => exact ⟨_, rfl⟩
        obtain ⟨t, ht⟩ := this
        rw [hc1] at ht
        refine ⟨t, ?_⟩
        rw [ht, hwgc_ev, List.append_assoc]
        rfl
      have hs2c : countE CEvent.connectEnter s2.events =
          countE CEvent.connectEnter s.events + 1 := by
        have := (connect_counts env (wgcState s)).1
        rw [hc1] at this
        rw [this, hwgc_c]
      have hs2w : countE CEvent.dbWriteCall s2.events =
          countE CEvent.dbWriteCall s.events := by
        have := (connect_counts env (wgcState s)).2.2
        rw [hc1] at this
        rw [this, hwgc_w]
      cases c1 with
      | true =>
        have hw : write env s = writeBody env s2 := by
          unfold write
          rw [hgc, hc1]
        rw [hw]
        refine ⟨?_, ?_, ?_, ?_, ?_⟩
        · obtain ⟨t, ht⟩ := hs2ev
          cases hdw : env.dbw s2.dbwN with
          | exn =>
            refine ⟨t ++ [CEvent.dbWriteCall], ?_⟩
            unfold writeBody
            rw [hdw]
            simp only [ht, List.append_assoc]
            rfl
          | ok u =>
            refine ⟨t ++ [CEvent.dbWriteCall, CEvent.syncSet], ?_⟩
            unfold writeBody
            rw [hdw]
            simp only [ht, List.append_assoc]
            rfl
        · rw [(writeBody_counts env s2).2, hs2c]
        · intro hcon
          simp at hcon
        · intro _ hcon
          simp at hcon
        · intro htrue
          unfold writeBody at htrue ⊢
          cases hdw : env.dbw s2.dbwN with
          | exn =>
            rw [hdw] at htrue
            simp at htrue
          | ok u =>
            refine ⟨rfl, ?_⟩
            show (s2.events ++ [CEvent.dbWriteCall, CEvent.syncSet]).getLast? =
              some CEvent.syncSet
            rw [List.getLast?_append]
            rfl
      | false =>
        have hw : write env s = (false, s2) := by
          unfold write
          rw [hgc, hc1]
        rw [hw]
        refine ⟨hs2ev, ?_, ?_, fun _ _ => ⟨rfl, hs2w⟩, ?_⟩
        · show countE CEvent.connectEnter s2.events ≤ countE CEvent.connectEnter s.events + 1
          omega
        · intro hcon
          simp at hcon
        · intro hcon
          simp at hcon

/-- Witness for C7 (amended): in the environment whose first state check
raises, `write` returns false with no connect attempt and no block
write. -/
theorem write_policy_witness :
    envExn.gc cs0.gcN = Res.exn ∧
    (write envExn cs0).1 = false ∧
    countE CEvent.connectEnter (write envExn cs0).2.events =
      countE CEvent.connectEnter cs0.events ∧
    countE CEvent.dbWriteCall (write envExn cs0).2.events =
      countE CEvent.dbWriteCall cs0.events :=
  ⟨rfl, (write_policy envExn cs0).2.2.1 rfl⟩

/-- Counterexample to C7 as stated: in `envExn` (first state check raises,
everything else succeeds) `read` succeeds — its connectivity handling
proceeds to a connect attempt — while `write` returns false at once with
no connect attempt and no block write, so `write` does not check
connectivity "the same way as read()". -/
theorem write_policy_counterexample :
    (read envExn cs0).1 = true ∧
    (write envExn cs0).1 = false ∧
    countE CEvent.connectEnter (write envExn cs0).2.events = 0 ∧
    countE CEvent.dbWriteCall (write envExn cs0).2.events = 0 :=
  ⟨rfl, rfl, rfl, rfl⟩

end SnapVars
